import Mathlib

/-!
Verification development for the findany streaming line filter.

The definitions below are a shallow embedding of the C sources.  Bytes are
modelled as natural numbers (the program reads them as unsigned char), C
buffers become Lean lists, and the while loops of the radix tree and of the
stream reader become fuelled structural recursions; the fuel passed by the
wrappers is generous enough for every run the C code performs.  Where a libc
function is called (memchr, memcmp, tolower) it is modelled by its portable
scalar semantics: memchr as first-occurrence search, memcmp via equality of
the first n bytes, tolower with its C-locale (ASCII) mapping.  The SSE
variant of memcmp, which the program substitutes for memcmp when compiled
with SSE4.1, is embedded separately over pointer-level memories so that the
two compilations of string_starts_with can be compared.
-/

/-- a pointer-level view of struct string (src/src/findany.c lines 157-161):
the data pointer is modelled as a byte offset into an ambient buffer,
together with the view length. -/
structure StrView where
  off : Nat
  len : Nat
deriving DecidableEq

/-- string_sub from src/src/findany.c lines 184-190: the returned view starts
at data + offset and has exactly the requested length; there is no clamping. -/
def string_sub (str : StrView) (offset length : Nat) : StrView :=
  ⟨str.off + offset, length⟩

/-- string_sub from src/unnamed/part_002 lines 157-167: the offset is clamped
to the source length and the length to the bytes remaining after the offset. -/
def string_sub_p2 (str : StrView) (offset length : Nat) : StrView :=
  let offset := if offset > str.len then str.len else offset
  let length := if length > str.len - offset then str.len - offset else length
  ⟨str.off + offset, length⟩

/-- the view v lies entirely within the source view src. -/
def viewWithin (v src : StrView) : Prop :=
  src.off ≤ v.off ∧ v.off + v.len ≤ src.off + src.len

instance (v src : StrView) : Decidable (viewWithin v src) := by
  unfold viewWithin; infer_instance

/-- byte content of a string_sub view for in-bounds requests: the window of
`length` bytes starting at `offset`.  This is how the in-bounds views produced
inside the radix tree and the readers are modelled at the byte level. -/
def string_sub_bytes (str : List Nat) (offset length : Nat) : List Nat :=
  (str.drop offset).take length

/-- ctype tolower with its C-locale (ASCII) semantics: the code builds its
lookup table by calling tolower on every byte value 0..255
(src/src/findany.c lines 196-202). -/
def tolower (c : Nat) : Nat :=
  if 65 ≤ c ∧ c ≤ 90 then c + 32 else c

/-- the process-global 256-entry lookup table built lazily by string_to_lower
(src/src/findany.c lines 194-202): entry c holds tolower c. -/
def lower_lookup : List Nat :=
  (List.range 256).map tolower

/-- string_to_lower (src/src/findany.c lines 192-207): every byte of the
source is mapped through the lookup table into the destination. -/
def string_to_lower (src : List Nat) : List Nat :=
  src.map fun b => lower_lookup.getD b b

/-- string_trim_end (src/src/findany.c lines 209-213): the length is
decremented while the last byte equals c, so all trailing c bytes go. -/
def string_trim_end (str : List Nat) (c : Nat) : List Nat :=
  (str.reverse.dropWhile (fun b => b == c)).reverse

/-- string_starts_with (src/src/findany.c lines 215-220) with the scalar
memcmp fallback: false when the string is shorter than the candidate prefix,
otherwise a byte comparison of the first substr.length bytes. -/
def string_starts_with (str substr : List Nat) : Bool :=
  if str.length < substr.length then false
  else str.take substr.length == substr

/-- string_greatest_common_sub (src/src/findany.c lines 222-231): the index
of the first mismatching byte, or the shorter length when one string is a
prefix of the other. -/
def string_greatest_common_sub : List Nat → List Nat → Nat
  | a :: as, b :: bs =>
    if a = b then string_greatest_common_sub as bs + 1 else 0
  | _, _ => 0

/-- subtraction on size_t values, with 64-bit wraparound. -/
def size_t_sub (x y : Nat) : Nat :=
  (x + 18446744073709551616 - y) % 18446744073709551616

/-- one 16-byte block comparison of memcmp_sse: the movemask of the packed
compare is 0xFFFF exactly when all 16 byte pairs at base offset i agree. -/
def sse_block_eq (a b : Nat → Nat) (i : Nat) : Bool :=
  (List.range 16).all fun j => a (i + j) == b (i + j)

/-- the block loop of memcmp_sse with k remaining iterations: none records
the early `return 0` on a mismatching block, otherwise the loop exit offset
is returned for the scalar tail. -/
def memcmp_sse_blocks (a b : Nat → Nat) : Nat → Nat → Option Nat
  | 0, i => some i
  | k + 1, i =>
    if sse_block_eq a b i then memcmp_sse_blocks a b k (i + 16) else none

/-- memcmp_sse (src/src/findany.c lines 103-121) over pointer-level buffers:
the loop `for (i = 0; i <= size - 16; i += 16)` computes its bound in size_t,
so it runs size_t_sub size 16 / 16 + 1 times (an astronomically large count
when size < 16, because the subtraction wraps); a mismatching block returns 0
at once, then the scalar tail checks offsets up to size, and on full equality
the function returns 1. -/
def memcmp_sse (a b : Nat → Nat) (size : Nat) : Nat :=
  match memcmp_sse_blocks a b (size_t_sub size 16 / 16 + 1) 0 with
  | none => 0
  | some i =>
    if (List.range size).all fun j => if i ≤ j then a j == b j else true
    then 1 else 0

/-- libc memcmp's equality outcome (the non-SSE fallback of _memcmp):
memcmp(a, b, n) == 0 exactly when the first n bytes agree. -/
def memcmp_is_zero (a b : Nat → Nat) (n : Nat) : Bool :=
  (List.range n).all fun i => a i == b i

/-- string_starts_with as compiled without SSE4.1, over pointer-level
buffers a of length la and b of length lb: length guard, then
`memcmp(a, b, lb) == 0`. -/
def string_starts_with_scalar (a : Nat → Nat) (la : Nat) (b : Nat → Nat) (lb : Nat) : Bool :=
  if la < lb then false else memcmp_is_zero a b lb

/-- string_starts_with as compiled with SSE4.1, where _memcmp is memcmp_sse:
length guard, then `memcmp_sse(a, b, lb) == 0`. -/
def string_starts_with_sse (a : Nat → Nat) (la : Nat) (b : Nat → Nat) (lb : Nat) : Bool :=
  if la < lb then false else memcmp_sse a b lb == 0

/-- struct fstream (src/src/findany.c lines 242-249): buffer holds the
currently buffered bytes (buffer_size is its length), buffer_offset the read
cursor, file the not-yet-read remainder of the underlying stream, and
buffer_capacity the fixed read size.  A read(2) is modelled as delivering
min(capacity, remaining) bytes. -/
structure Fstream where
  buffer : List Nat
  buffer_offset : Nat
  file : List Nat
  buffer_capacity : Nat
deriving DecidableEq

/-- fstream_read_to_buffer (src/src/findany.c lines 262-266): one read(2)
refills the buffer and resets the cursor. -/
def fstream_read_to_buffer (s : Fstream) : Fstream :=
  { s with
    buffer := s.file.take s.buffer_capacity,
    file := s.file.drop s.buffer_capacity,
    buffer_offset := 0 }

/-- memchr over a byte list: the offset of the first byte equal to delim, or
none.  This is the common semantics of libc memchr and of memchr_sse
(src/src/findany.c lines 75-101), which keeps the max_count >= 16 guard and
returns the least offset within a matching block. -/
def memchr_model (delim : Nat) : List Nat → Option Nat
  | [] => none
  | b :: rest =>
    if b = delim then some 0 else (memchr_model delim rest).map (· + 1)

/-- the while loop of fstream_read_line (src/src/findany.c lines 273-287),
fuelled: search the unread part of the buffer for the delimiter, append the
slice up to and including it (or the whole remainder) to the line
accumulator, and refill the buffer when it runs dry without a delimiter. -/
def fstream_read_line_loop (delim : Nat) : Nat → Fstream → List Nat → List Nat × Fstream
  | 0, s, acc => (acc, s)
  | fuel + 1, s, acc =>
    if s.buffer.length = 0 then (acc, s)
    else
      match memchr_model delim (s.buffer.drop s.buffer_offset) with
      | some j =>
        (acc ++ string_sub_bytes s.buffer s.buffer_offset (j + 1),
         { s with buffer_offset := s.buffer_offset + (j + 1) })
      | none =>
        let length := s.buffer.length - s.buffer_offset
        let acc2 := acc ++ string_sub_bytes s.buffer s.buffer_offset length
        let s2 := { s with buffer_offset := s.buffer_offset + length }
        fstream_read_line_loop delim fuel (fstream_read_to_buffer s2) acc2

/-- fstream_read_line (src/src/findany.c lines 268-289): refill when the
cursor has consumed the buffer, then run the accumulation loop.  The fuel
bound exceeds the number of refills any run can perform. -/
def fstream_read_line (s : Fstream) (delim : Nat) : List Nat × Fstream :=
  let s0 := if s.buffer.length ≤ s.buffer_offset then fstream_read_to_buffer s else s
  fstream_read_line_loop delim (s0.file.length + s0.buffer.length + 2) s0 []

/-- specification of one logical line of a byte stream: the next line
including its delimiter byte when one occurs, otherwise the whole remainder
(so the final line of a stream without a trailing delimiter is returned
without one, and an empty remainder gives an empty line). -/
def specLine (delim : Nat) : List Nat → List Nat
  | [] => []
  | b :: rest => if b = delim then [b] else b :: specLine delim rest

/-- struct radix_tree_node (src/src/findany.c lines 316-322). -/
structure RNode where
  kw_idx : Nat
  kw_length : Nat
  next_node_idx : Nat
  child_node_idx : Nat
  leaf : Bool
deriving DecidableEq

/-- a freshly allocated node: radix_tree_node_add zeroes it. -/
def RNode.zero : RNode := ⟨0, 0, 0, 0, false⟩

/-- the radix_tree arena (src/src/findany.c lines 324-331): the node array
and the keyword byte pool; nodes_length and kwmem_length are the list
lengths, and the capacity fields only drive reallocation, which index-based
shallow state does not need. -/
structure RTree where
  nodes : List RNode
  kwmem : List Nat
deriving DecidableEq

/-- radix_tree_init (src/src/findany.c lines 333-341): empty arena and pool. -/
def radix_tree_init : RTree := ⟨[], []⟩

/-- radix_tree_node_add (src/src/findany.c lines 343-352): append one zeroed
node and return its index. -/
def radix_tree_node_add (t : RTree) : RTree × Nat :=
  (⟨t.nodes ++ [RNode.zero], t.kwmem⟩, t.nodes.length)

/-- radix_tree_kw_add (src/src/findany.c lines 366-376): append the keyword
bytes to the pool and return the offset at which they start. -/
def radix_tree_kw_add (t : RTree) (kw : List Nat) : RTree × Nat :=
  (⟨t.nodes, t.kwmem ++ kw⟩, t.kwmem.length)

/-- radix_tree_get_node (src/src/findany.c lines 354-357). -/
def radix_tree_get_node (t : RTree) (idx : Nat) : RNode :=
  t.nodes.getD idx RNode.zero

/-- radix_tree_get_node_kw (src/src/findany.c lines 359-364): the pool bytes
of the node's keyword view. -/
def radix_tree_get_node_kw (t : RTree) (idx : Nat) : List Nat :=
  let node := radix_tree_get_node t idx
  (t.kwmem.drop node.kw_idx).take node.kw_length

/-- a store through a node pointer, as an arena update. -/
def radix_tree_set_node (t : RTree) (idx : Nat) (n : RNode) : RTree :=
  ⟨t.nodes.set idx n, t.kwmem⟩

/-- the while(true) loop of radix_tree_add (src/src/findany.c lines 390-491),
fuelled; on exhausted fuel the state is returned unchanged.  Each branch
mirrors one case of the C code, including the final case in which, after the
node has been split at the common prefix, the insertion continues at the
split node's next sibling whenever one exists. -/
def radix_tree_add_loop : Nat → RTree → List Nat → Nat → RTree
  | 0, t, _, _ => t
  | fuel + 1, t, str, node_idx =>
    let node := radix_tree_get_node t node_idx
    let node_kw := radix_tree_get_node_kw t node_idx
    let common := string_greatest_common_sub str node_kw
    if common = node.kw_length ∧ common = str.length then
      radix_tree_set_node t node_idx { node with leaf := true }
    else if common = 0 then
      if 0 < node.next_node_idx then
        radix_tree_add_loop fuel t str node.next_node_idx
      else
        let p := radix_tree_node_add t
        let q := radix_tree_kw_add p.1 str
        radix_tree_set_node
          (radix_tree_set_node q.1 node_idx { node with next_node_idx := p.2 })
          p.2 ⟨q.2, str.length, 0, 0, true⟩
    else if common = node.kw_length then
      let str2 := string_sub_bytes str common (str.length - common)
      if 0 < node.child_node_idx then
        radix_tree_add_loop fuel t str2 node.child_node_idx
      else
        let p := radix_tree_node_add t
        let q := radix_tree_kw_add p.1 str2
        radix_tree_set_node
          (radix_tree_set_node q.1 node_idx { node with child_node_idx := p.2 })
          p.2 ⟨q.2, str2.length, 0, 0, true⟩
    else if common = str.length then
      let p := radix_tree_node_add t
      radix_tree_set_node
        (radix_tree_set_node p.1 p.2
          ⟨node.kw_idx + common, node.kw_length - common, 0, node.child_node_idx, node.leaf⟩)
        node_idx ⟨node.kw_idx, common, node.next_node_idx, p.2, true⟩
    else
      let p := radix_tree_node_add t
      let t3 := radix_tree_set_node
        (radix_tree_set_node p.1 p.2
          ⟨node.kw_idx + common, node.kw_length - common, 0, node.child_node_idx, node.leaf⟩)
        node_idx ⟨node.kw_idx, common, node.next_node_idx, p.2, false⟩
      let str2 := string_sub_bytes str common (str.length - common)
      if 0 < node.next_node_idx then
        radix_tree_add_loop fuel t3 str2 node.next_node_idx
      else
        let p2 := radix_tree_node_add t3
        let q2 := radix_tree_kw_add p2.1 str2
        radix_tree_set_node
          (radix_tree_set_node q2.1 p.2
            { radix_tree_get_node q2.1 p.2 with next_node_idx := p2.2 })
          p2.2 ⟨q2.2, str2.length, 0, 0, true⟩

/-- radix_tree_add (src/src/findany.c lines 378-492): an empty arena gets a
root node holding the whole keyword, otherwise the insertion loop starts at
the root.  The fuel is generous: each loop step either consumes keyword
bytes or advances along a sibling chain. -/
def radix_tree_add (t : RTree) (str : List Nat) : RTree :=
  if t.nodes.length = 0 then
    let p := radix_tree_node_add t
    let q := radix_tree_kw_add p.1 str
    radix_tree_set_node q.1 0 ⟨q.2, str.length, 0, 0, true⟩
  else
    radix_tree_add_loop ((str.length + 1) * (t.nodes.length + str.length + 2)) t str 0

/-- the do-while loop of radix_tree_find (src/src/findany.c lines 499-521),
fuelled, with instrumented memory safety: the result is none exactly when the
loop would touch a node index outside the arena or keyword bytes outside the
pool.  string_starts_with carries its scalar fallback semantics. -/
def radix_tree_find_loop : Nat → RTree → List Nat → Nat → Option Bool
  | 0, _, _, _ => some false
  | fuel + 1, t, str, idx =>
    if idx < t.nodes.length then
      let node := radix_tree_get_node t idx
      if node.kw_idx + node.kw_length ≤ t.kwmem.length then
        let node_kw := (t.kwmem.drop node.kw_idx).take node.kw_length
        if str.length < node.kw_length then
          if string_starts_with node_kw str then some false
          else if 0 < node.next_node_idx ∧ 0 < str.length then
            radix_tree_find_loop fuel t str node.next_node_idx
          else some false
        else if string_starts_with str node_kw then
          if node.leaf then some true
          else
            let str2 := string_sub_bytes str node.kw_length (str.length - node.kw_length)
            if 0 < node.child_node_idx ∧ 0 < str2.length then
              radix_tree_find_loop fuel t str2 node.child_node_idx
            else some false
        else if 0 < node.next_node_idx ∧ 0 < str.length then
          radix_tree_find_loop fuel t str node.next_node_idx
        else some false
      else none
    else none

/-- radix_tree_find with the safety instrumentation kept (none on an
out-of-arena access). -/
def radix_tree_find_checked (t : RTree) (str : List Nat) : Option Bool :=
  if t.nodes.length = 0 then some false
  else radix_tree_find_loop (t.nodes.length + str.length + 2) t str 0

/-- radix_tree_find (src/src/findany.c lines 494-524). -/
def radix_tree_find (t : RTree) (str : List Nat) : Bool :=
  (radix_tree_find_checked t str).getD false

/-- radix_tree_find_anywhere (src/src/findany.c lines 571-581): trim all
trailing newline bytes, then all trailing carriage returns, then probe every
suffix of what remains. -/
def radix_tree_find_anywhere (t : RTree) (str : List Nat) : Bool :=
  let s1 := string_trim_end str 10
  let s2 := string_trim_end s1 13
  (List.range s2.length).any fun i =>
    radix_tree_find t (string_sub_bytes s2 i (s2.length - i))

/-- handle_line (src/src/findany.c lines 668-678), restricted to its output
behaviour: the original line is written exactly when the search verdict on
the search line, XORed with the invert flag, is true.  The returned list
holds the write(2) payloads of this call; progress accounting only drives
the progress bar and is not modelled. -/
def handle_line (t : RTree) (line_for_search line_original : List Nat) (invert : Bool) :
    List (List Nat) :=
  if Bool.xor (radix_tree_find_anywhere t line_for_search) invert then [line_original] else []

/-- the main loop of findany (src/src/findany.c lines 725-747) over the
sequence of lines the reader produces: stops at the first empty line (the
reader's end-of-stream signal); in case-insensitive mode the needle is the
lowercased shadow of the line, cut to the line's length, while the original
line is what gets emitted. -/
def findany_loop (t : RTree) (case_insensitive invert : Bool) :
    List (List Nat) → List (List Nat)
  | [] => []
  | line :: rest =>
    if line.length = 0 then []
    else
      let needle :=
        if case_insensitive then string_sub_bytes (string_to_lower line) 0 line.length
        else line
      handle_line t needle line invert ++ findany_loop t case_insensitive invert rest

/-- the loop of radix_tree_build_from_file (src/src/findany.c lines 536-552)
over the sequence of lines the dictionary reader produces: stop at an empty
line (end of stream); lowercase when case-insensitive; strip one trailing
newline and then one trailing carriage return; stop when the stripped
keyword is empty; otherwise insert it and continue. -/
def radix_tree_build_loop (case_insensitive : Bool) :
    RTree → List (List Nat) → RTree
  | t, [] => t
  | t, line :: rest =>
    if line.length = 0 then t
    else
      let s1 := if case_insensitive then string_to_lower line else line
      let s2 := if s1.getD (s1.length - 1) 0 = 10
        then string_sub_bytes s1 0 (s1.length - 1) else s1
      let s3 := if 0 < s2.length ∧ s2.getD (s2.length - 1) 0 = 13
        then string_sub_bytes s2 0 (s2.length - 1) else s2
      if s3.length = 0 then t
      else radix_tree_build_loop case_insensitive (radix_tree_add t s3) rest

/-- radix_tree_build_from_file (src/src/findany.c lines 526-553), consuming
the iterator of lines the fstream reader yields from the dictionary file. -/
def radix_tree_build_from_file (lines : List (List Nat)) (case_insensitive : Bool) : RTree :=
  radix_tree_build_loop case_insensitive radix_tree_init lines

/-- the keyword normalisation build_from_file applies before insertion:
lowercase when case-insensitive, then strip one trailing newline and one
trailing carriage return. -/
def kw_norm (case_insensitive : Bool) (line : List Nat) : List Nat :=
  let s1 := if case_insensitive then string_to_lower line else line
  let s2 := if s1.getD (s1.length - 1) 0 = 10
    then string_sub_bytes s1 0 (s1.length - 1) else s1
  if 0 < s2.length ∧ s2.getD (s2.length - 1) 0 = 13
    then string_sub_bytes s2 0 (s2.length - 1) else s2

/-- the needle the spec normalises a line to: lowercased when
case-insensitive, with trailing newline and carriage-return bytes trimmed. -/
def needle_norm (case_insensitive : Bool) (line : List Nat) : List Nat :=
  string_trim_end
    (string_trim_end (if case_insensitive then string_to_lower line else line) 10) 13

/-- existentials bounded by a natural number are decidable by scanning. -/
instance decidableExistsLtAnd (n : Nat) (p : Nat → Prop) [DecidablePred p] :
    Decidable (∃ i, i < n ∧ p i) :=
  decidable_of_iff (((List.range n).any fun i => decide (p i)) = true)
    (by simp [List.any_eq_true, List.mem_range])

/-- contains-anywhere of the spec: some suffix of the view has a prefix in
the dictionary, probed through radix_tree_find. -/
def containsAnywhere (t : RTree) (v : List Nat) : Bool :=
  decide (∃ i, i < v.length ∧
    radix_tree_find t (string_sub_bytes v i (v.length - i)) = true)

/-- the per-line emission predicate of the spec: contains-anywhere of the
normalised needle, XOR the invert flag. -/
def spec_matches (t : RTree) (case_insensitive invert : Bool) (line : List Nat) : Bool :=
  Bool.xor (containsAnywhere t (needle_norm case_insensitive line)) invert

/-- the logical remaining content of a stream: unread buffered bytes
followed by the unread file bytes. -/
def streamContent (s : Fstream) : List Nat :=
  s.buffer.drop s.buffer_offset ++ s.file

/-- well-formedness of one arena node with respect to the arena size and the
keyword-pool size: both links are 0 (absent) or indices of allocated nodes,
and the keyword view lies within the pool. -/
def NodeWF (len pool : Nat) (n : RNode) : Prop :=
  (n.next_node_idx = 0 ∨ n.next_node_idx < len) ∧
  (n.child_node_idx = 0 ∨ n.child_node_idx < len) ∧
  n.kw_idx + n.kw_length ≤ pool

/-- well-formedness of the whole arena: every allocated node is node-wf. -/
def ArenaWF (t : RTree) : Prop :=
  ∀ n ∈ t.nodes, NodeWF t.nodes.length t.kwmem.length n

/-- C2: the claim asserts that radix_tree_find is true exactly on strings
with an inserted non-empty prefix.  The code refutes it: after inserting the
keywords ab, cd, ax (bytes 97 98 / 99 100 / 97 120), the insertion of ax
splits the ab node and then continues with the remaining suffix x at the
split node's next sibling cd, so the suffix lands in the root sibling list.
Consequently find misses the inserted keyword ax and accepts the never
inserted string x. -/
theorem c2_radix_tree_find_misses_inserted_keyword :
    radix_tree_find
      (List.foldl radix_tree_add radix_tree_init [[97, 98], [99, 100], [97, 120]])
      [97, 120] = false
  ∧ radix_tree_find
      (List.foldl radix_tree_add radix_tree_init [[97, 98], [99, 100], [97, 120]])
      [120] = true := by
  constructor <;> decide

/-- C9: the claim asserts idempotence of insertion.  With the dictionary
ab, cd, ax the keyword ax is already inserted, yet inserting it a second
time changes radix_tree_find on the query ax from false to true, because the
first insertion had misplaced the suffix x (see the C2 analysis) and the
second walks the by-then split nodes correctly. -/
theorem c9_reinsert_changes_find :
    radix_tree_find
      (List.foldl radix_tree_add radix_tree_init [[97, 98], [99, 100], [97, 120]])
      [97, 120] = false
  ∧ radix_tree_find
      (radix_tree_add
        (List.foldl radix_tree_add radix_tree_init [[97, 98], [99, 100], [97, 120]])
        [97, 120])
      [97, 120] = true := by
  constructor <;> decide

/-- C3: the claim asserts that string_starts_with returns the same boolean
whether _memcmp is the scalar memcmp or memcmp_sse.  It fails already on two
equal 16-byte buffers (all bytes 97): memcmp returns 0 on equality, so the
scalar build answers true, but memcmp_sse returns 1 on equality while the
caller still tests == 0, so the SSE build answers false. -/
theorem c3_sse_scalar_starts_with_disagree :
    string_starts_with_scalar (fun _ => 97) 16 (fun _ => 97) 16 = true
  ∧ string_starts_with_sse (fun _ => 97) 16 (fun _ => 97) 16 = false := by
  constructor <;> decide

/-- C5 counterexample: string_sub of src/src/findany.c does not clamp; on a
source view of length 2, requesting offset 5 and length 9 yields a view that
escapes the source. -/
theorem c5_string_sub_escapes_source :
    ¬ viewWithin (string_sub ⟨0, 2⟩ 5 9) ⟨0, 2⟩ := by
  decide

/-- C5 amended: the clamping variant of string_sub, the one in
src/unnamed/part_002, is total and always returns a view lying entirely
within the source. -/
theorem c5_string_sub_p2_clamps_within_source (str : StrView) (offset length : Nat) :
    viewWithin (string_sub_p2 str offset length) str := by
  unfold string_sub_p2 viewWithin
  dsimp only
  constructor
  · omega
  · split_ifs <;> omega

/-- C4 counterexample: with the dictionary file lines a, blank, b the build
stops at the blank line, so the keyword b (byte 98) is never inserted: its
byte never reaches the keyword pool and find rejects it. -/
theorem c4_blank_line_stops_build :
    98 ∉ (radix_tree_build_from_file [[97, 10], [10], [98, 10]] false).kwmem
  ∧ radix_tree_find (radix_tree_build_from_file [[97, 10], [10], [98, 10]] false)
      [98] = false := by
  constructor <;> decide

set_option maxRecDepth 8192 in
/-- C8: the 256-entry lowercase table maps the bytes 65..90 (A..Z) to their
ASCII lowercase counterparts and every other byte, in particular every byte
at and above 128, to itself. -/
theorem c8_lower_lookup_is_ascii_tolower :
    lower_lookup.length = 256
  ∧ ∀ b, b < 256 → lower_lookup.getD b 0 = if 65 ≤ b ∧ b ≤ 90 then b + 32 else b := by
  constructor
  · decide
  · decide

/-- witness for C8: the concrete non-ASCII byte 200 maps to itself, via the
theorem applied at b = 200. -/
theorem c8_lower_lookup_witness : lower_lookup.getD 200 0 = 200 := by
  have h := c8_lower_lookup_is_ascii_tolower.2 200 (by decide)
  exact h.trans (by decide)

/-- booleans agreeing as propositions are equal. -/
theorem bool_eq_of_iff {a b : Bool} (h : a = true ↔ b = true) : a = b := by
  cases a <;> cases b <;> simp_all

/-- a Bool any over List.range is the decided bounded existential. -/
theorem range_any_eq_decide (n : Nat) (f : Nat → Bool) :
    ((List.range n).any f) = decide (∃ i, i < n ∧ f i = true) := by
  apply bool_eq_of_iff
  simp [List.any_eq_true, List.mem_range]

/-- radix_tree_find_anywhere is the spec's contains-anywhere of the
doubly-trimmed view. -/
theorem find_anywhere_eq_containsAnywhere (t : RTree) (v : List Nat) :
    radix_tree_find_anywhere t v
      = containsAnywhere t (string_trim_end (string_trim_end v 10) 13) := by
  unfold radix_tree_find_anywhere containsAnywhere
  exact range_any_eq_decide _ _

/-- cutting the lowercased shadow buffer to the line's length returns exactly
the lowercased line, because lowercasing preserves length. -/
theorem lower_sub_self (line : List Nat) :
    string_sub_bytes (string_to_lower line) 0 line.length = string_to_lower line := by
  simp [string_sub_bytes, string_to_lower]

/-- the search verdict on the needle the code forms equals the spec verdict
on the normalised needle. -/
theorem find_anywhere_needle (t : RTree) (ci : Bool) (line : List Nat) :
    radix_tree_find_anywhere t
        (if ci then string_sub_bytes (string_to_lower line) 0 line.length else line)
      = containsAnywhere t (needle_norm ci line) := by
  cases ci <;>
    simp [find_anywhere_eq_containsAnywhere, lower_sub_self, needle_norm]

/-- C1: over any sequence of non-empty lines produced by the reader, the
engine's write stream is exactly the input filtered by the spec predicate:
each line is written once when contains-anywhere of its normalised needle
XOR invert is true, and not at all otherwise, in both matching modes. -/
theorem c1_engine_emits_filtered_lines (t : RTree) (ci invert : Bool)
    (lines : List (List Nat)) (h : ∀ l ∈ lines, l ≠ []) :
    findany_loop t ci invert lines = lines.filter (spec_matches t ci invert) := by
  induction lines with
  | nil => rfl
  | cons line rest ih =>
    have hline : ¬ line.length = 0 := by
      simpa [List.length_eq_zero] using h line (by simp)
    have ih2 := ih (fun l hl => h l (List.mem_cons_of_mem _ hl))
    simp only [findany_loop]
    rw [if_neg hline]
    unfold handle_line
    rw [find_anywhere_needle, List.filter_cons, ih2]
    by_cases hsm : Bool.xor (containsAnywhere t (needle_norm ci line)) invert = true
    · rw [hsm]
      simp [spec_matches, hsm]
    · rw [Bool.not_eq_true] at hsm
      rw [hsm]
      simp [spec_matches, hsm]

/-- witness for C1: a concrete dictionary with the single keyword a and two
concrete lines, of which exactly the first matches. -/
theorem c1_engine_witness :
    (∀ l ∈ [[97, 98, 10], [98, 10]], l ≠ ([] : List Nat))
  ∧ findany_loop (radix_tree_add radix_tree_init [97]) false false
      [[97, 98, 10], [98, 10]]
      = List.filter (spec_matches (radix_tree_add radix_tree_init [97]) false false)
          [[97, 98, 10], [98, 10]] :=
  ⟨by decide, c1_engine_emits_filtered_lines _ _ _ _ (by decide)⟩

/-- C6: the write stream is a sublist of the input lines: every emitted line
is byte-identical to the input line it came from, trailing carriage returns
and newlines included, in both the default and the case-insensitive mode;
lowercasing and trimming touch only the needle, never the emitted bytes. -/
theorem c6_output_sublist_of_input (t : RTree) (ci invert : Bool)
    (lines : List (List Nat)) :
    List.Sublist (findany_loop t ci invert lines) lines := by
  induction lines with
  | nil => simp [findany_loop]
  | cons line rest ih =>
    simp only [findany_loop]
    split
    · exact List.nil_sublist _
    · have hh : ∀ s, List.Sublist
          (handle_line t s line invert ++ findany_loop t ci invert rest)
          (line :: rest) := by
        intro s
        unfold handle_line
        split
        · exact List.Sublist.cons₂ _ ih
        · exact List.Sublist.cons _ ih
      exact hh _

/-- the build loop, on any sequence of non-empty lines, folds the insertion
over the normalised keywords that precede the first line that is blank after
stripping: takeWhile cuts the keyword list at the first blank, which makes
the loop stop. -/
theorem build_loop_eq_foldl (ci : Bool) (lines : List (List Nat)) :
    ∀ t : RTree, (∀ l ∈ lines, l ≠ []) →
    radix_tree_build_loop ci t lines
      = List.foldl radix_tree_add t
          ((lines.map (kw_norm ci)).takeWhile fun k => decide (k ≠ [])) := by
  induction lines with
  | nil => intro t _; rfl
  | cons line rest ih =>
    intro t h
    have hne : line ≠ [] := h line (by simp)
    have hlen : ¬ line.length = 0 := by simpa [List.length_eq_zero] using hne
    simp only [radix_tree_build_loop, List.map_cons]
    rw [if_neg hlen, List.takeWhile_cons]
    show (if (kw_norm ci line).length = 0 then t
      else radix_tree_build_loop ci (radix_tree_add t (kw_norm ci line)) rest) = _
    by_cases hb : (kw_norm ci line).length = 0
    · have hknil : kw_norm ci line = [] := List.length_eq_zero.mp hb
      rw [if_pos hb, hknil]
      simp
    · have hkne : kw_norm ci line ≠ [] := by
        simpa [List.length_eq_zero] using hb
      rw [if_neg hb, if_pos (by simpa using hkne), List.foldl_cons]
      exact ih _ (fun l hl => h l (List.mem_cons_of_mem _ hl))

/-- C4 amended: over any sequence of non-empty dictionary lines, the build
inserts, in file order, exactly the normalised keywords (lowercased when
case-insensitive, one trailing newline and one trailing carriage return
stripped) that precede the first line that is blank after stripping; such a
blank line terminates the build, so no keyword at or after it is inserted. -/
theorem c4_build_inserts_keywords_before_blank (lines : List (List Nat)) (ci : Bool)
    (h : ∀ l ∈ lines, l ≠ []) :
    radix_tree_build_from_file lines ci
      = List.foldl radix_tree_add radix_tree_init
          ((lines.map (kw_norm ci)).takeWhile fun k => decide (k ≠ [])) :=
  build_loop_eq_foldl ci lines radix_tree_init h

/-- witness for C4: a concrete dictionary file whose second line is blank
builds exactly the fold over the keywords before the blank, so only the
keyword a is inserted and b is not. -/
theorem c4_build_witness :
    (∀ l ∈ [[97, 10], [10], [98, 10]], l ≠ ([] : List Nat))
  ∧ radix_tree_build_from_file [[97, 10], [10], [98, 10]] false
      = List.foldl radix_tree_add radix_tree_init
          ((List.map (kw_norm false) [[97, 10], [10], [98, 10]]).takeWhile
            fun k => decide (k ≠ [])) :=
  ⟨by decide, c4_build_inserts_keywords_before_blank _ _ (by decide)⟩


/-- a delimiter-free block passes through specLine. -/
theorem memchr_none_append {d : Nat} {l : List Nat} (h : memchr_model d l = none)
    (r : List Nat) : specLine d (l ++ r) = l ++ specLine d r := by
  induction l with
  | nil => simp
  | cons b bs ih =>
    by_cases hb : b = d
    · rw [memchr_model, if_pos hb] at h
      exact absurd h (by simp)
    · rw [memchr_model, if_neg hb] at h
      have hbs : memchr_model d bs = none := Option.map_eq_none'.mp h
      rw [List.cons_append]
      simp only [specLine]
      rw [if_neg hb, ih hbs]
      rfl

/-- a delimiter-free list is its own specLine. -/
theorem memchr_none_self {d : Nat} {l : List Nat} (h : memchr_model d l = none) :
    specLine d l = l := by
  have h2 := memchr_none_append h []
  simpa [specLine] using h2

/-- a found delimiter offset lies within the searched block. -/
theorem memchr_some_lt {d : Nat} {l : List Nat} {j : Nat}
    (h : memchr_model d l = some j) : j < l.length := by
  induction l generalizing j with
  | nil => simp [memchr_model] at h
  | cons b bs ih =>
    by_cases hb : b = d
    · rw [memchr_model, if_pos hb] at h
      cases h
      simp
    · rw [memchr_model, if_neg hb] at h
      obtain ⟨j2, hj2, rfl⟩ := Option.map_eq_some'.mp h
      have := ih hj2
      simp only [List.length_cons]
      omega

/-- when the first delimiter of a block sits at offset j, specLine of the
block and anything after it is the block cut just past the delimiter. -/
theorem memchr_some_append {d : Nat} {l : List Nat} {j : Nat}
    (h : memchr_model d l = some j) (r : List Nat) :
    specLine d (l ++ r) = l.take (j + 1) := by
  induction l generalizing j with
  | nil => simp [memchr_model] at h
  | cons b bs ih =>
    by_cases hb : b = d
    · rw [memchr_model, if_pos hb] at h
      cases h
      rw [List.cons_append]
      simp only [specLine]
      rw [if_pos hb]
      simp
    · rw [memchr_model, if_neg hb] at h
      obtain ⟨j2, hj2, rfl⟩ := Option.map_eq_some'.mp h
      rw [List.cons_append]
      simp only [specLine]
      rw [if_neg hb, ih hj2, List.take_succ_cons]

/-- dropping past an appended prefix drops into the suffix. -/
theorem drop_append_add (l r : List Nat) (n : Nat) :
    (l ++ r).drop (l.length + n) = r.drop n := by
  rw [← List.drop_drop n l.length, List.drop_left]

/-- the loop of fstream_read_line, given fuel exceeding the remaining file
length, appends the next logical line to the accumulator and leaves exactly
the rest of the content behind. -/
theorem read_line_loop_spec (delim : Nat) :
    ∀ (fuel : Nat) (s : Fstream) (acc : List Nat),
      1 ≤ s.buffer_capacity →
      s.file.length + 2 ≤ fuel →
      (s.buffer.length = 0 → s.file = []) →
      (fstream_read_line_loop delim fuel s acc).1
          = acc ++ specLine delim (streamContent s)
      ∧ streamContent (fstream_read_line_loop delim fuel s acc).2
          = (streamContent s).drop (specLine delim (streamContent s)).length
      ∧ (fstream_read_line_loop delim fuel s acc).2.buffer_capacity
          = s.buffer_capacity := by
  intro fuel
  induction fuel with
  | zero => intro s acc hcap hfuel hinv; omega
  | succ fuel ih =>
    intro s acc hcap hfuel hinv
    by_cases hbuf : s.buffer.length = 0
    · have hfile : s.file = [] := hinv hbuf
      have hbufnil : s.buffer = [] := List.length_eq_zero.mp hbuf
      refine ⟨?_, ?_, ?_⟩ <;>
        simp [fstream_read_line_loop, if_pos hbuf, streamContent, hbufnil, hfile, specLine]
    · simp only [fstream_read_line_loop, if_neg hbuf]
      cases hm : memchr_model delim (s.buffer.drop s.buffer_offset) with
      | some j =>
        have hjlt : j < (s.buffer.drop s.buffer_offset).length := memchr_some_lt hm
        have hspec : specLine delim (streamContent s)
            = (s.buffer.drop s.buffer_offset).take (j + 1) :=
          memchr_some_append hm s.file
        dsimp only
        refine ⟨?_, ?_, rfl⟩
        · rw [hspec]
          rfl
        · rw [hspec, List.length_take, min_eq_left (by omega)]
          dsimp only [streamContent]
          rw [List.drop_append_of_le_length (by omega), List.drop_drop]
      | none =>
        dsimp only [fstream_read_to_buffer]
        have hreg : string_sub_bytes s.buffer s.buffer_offset
              (s.buffer.length - s.buffer_offset)
            = s.buffer.drop s.buffer_offset := by
          unfold string_sub_bytes
          have h2 : (s.buffer.drop s.buffer_offset).length
              = s.buffer.length - s.buffer_offset := List.length_drop _ _
          rw [← h2, List.take_length]
        have hsplit : specLine delim (streamContent s)
            = s.buffer.drop s.buffer_offset ++ specLine delim s.file :=
          memchr_none_append hm s.file
        have hcont : streamContent s = s.buffer.drop s.buffer_offset ++ s.file := rfl
        by_cases hfe : s.file = []
        · obtain ⟨k, rfl⟩ : ∃ k, fuel = k + 1 := ⟨fuel - 1, by omega⟩
          rw [hfe] at hsplit hcont ⊢
          rw [hreg]
          simp only [List.take_nil, List.drop_nil]
          rw [show (fstream_read_line_loop delim (k + 1)
              ⟨[], 0, [], s.buffer_capacity⟩
              (acc ++ s.buffer.drop s.buffer_offset))
            = (acc ++ s.buffer.drop s.buffer_offset,
               (⟨[], 0, [], s.buffer_capacity⟩ : Fstream)) from by
            simp [fstream_read_line_loop]]
          refine ⟨?_, ?_, ?_⟩
          · rw [hsplit]
            simp [specLine]
          · rw [hsplit, hcont]
            simp [streamContent, specLine]
            omega
          · rfl
        · have hlen1 : 1 ≤ s.file.length := by
            have h0 : s.file.length ≠ 0 := fun h => hfe (List.length_eq_zero.mp h)
            omega
          obtain ⟨ha, hb, hc⟩ := ih
            ⟨s.file.take s.buffer_capacity, 0, s.file.drop s.buffer_capacity,
              s.buffer_capacity⟩
            (acc ++ string_sub_bytes s.buffer s.buffer_offset
              (s.buffer.length - s.buffer_offset))
            hcap
            (by
              dsimp only
              rw [List.length_drop]
              omega)
            (by
              dsimp only
              intro habs
              rw [List.length_take] at habs
              exfalso
              omega)
          have hsc : streamContent
              ⟨s.file.take s.buffer_capacity, 0, s.file.drop s.buffer_capacity,
                s.buffer_capacity⟩ = s.file := by
            simp [streamContent]
          rw [hsc] at ha hb
          refine ⟨?_, ?_, ?_⟩
          · rw [ha, hreg, hsplit, List.append_assoc]
          · rw [hb, hsplit, hcont, List.length_append, drop_append_add]
          · exact hc

/-- C7: fstream_read_line returns the next logical line of the stream
content, including the terminating delimiter byte when one occurs before
end-of-stream and without it when the stream ends first; at end-of-stream
(empty remaining content) it returns an empty view; and the remaining
content of the stream afterwards is exactly what follows the returned
line. -/
theorem c7_fstream_read_line_contract (s : Fstream) (delim : Nat)
    (hcap : 1 ≤ s.buffer_capacity) :
    (fstream_read_line s delim).1 = specLine delim (streamContent s)
  ∧ streamContent (fstream_read_line s delim).2
      = (streamContent s).drop (specLine delim (streamContent s)).length
  ∧ (fstream_read_line s delim).2.buffer_capacity = s.buffer_capacity
  ∧ (streamContent s = [] → (fstream_read_line s delim).1 = []) := by
  have main : (fstream_read_line s delim).1 = specLine delim (streamContent s)
      ∧ streamContent (fstream_read_line s delim).2
          = (streamContent s).drop (specLine delim (streamContent s)).length
      ∧ (fstream_read_line s delim).2.buffer_capacity = s.buffer_capacity := by
    by_cases hoff : s.buffer.length ≤ s.buffer_offset
    · have heq : fstream_read_line s delim
          = fstream_read_line_loop delim
              ((fstream_read_to_buffer s).file.length
                + (fstream_read_to_buffer s).buffer.length + 2)
              (fstream_read_to_buffer s) [] := by
        unfold fstream_read_line
        rw [if_pos hoff]
      have hcs : streamContent (fstream_read_to_buffer s) = streamContent s := by
        simp [streamContent, fstream_read_to_buffer, List.take_append_drop,
          List.drop_eq_nil_of_le hoff]
      obtain ⟨ha, hb, hc⟩ := read_line_loop_spec delim
        ((fstream_read_to_buffer s).file.length
          + (fstream_read_to_buffer s).buffer.length + 2)
        (fstream_read_to_buffer s) [] hcap (by omega)
        (by
          intro habs
          dsimp only [fstream_read_to_buffer] at habs ⊢
          rw [List.length_take] at habs
          have h0 : s.file.length = 0 := by omega
          rw [List.length_eq_zero.mp h0]
          exact List.drop_nil)
      rw [hcs] at ha hb
      rw [heq]
      exact ⟨by rw [ha]; simp, hb, hc⟩
    · have heq : fstream_read_line s delim
          = fstream_read_line_loop delim (s.file.length + s.buffer.length + 2) s [] := by
        unfold fstream_read_line
        rw [if_neg hoff]
      obtain ⟨ha, hb, hc⟩ := read_line_loop_spec delim
        (s.file.length + s.buffer.length + 2) s [] hcap (by omega)
        (fun h => absurd h (by omega))
      rw [heq]
      exact ⟨by rw [ha]; simp, hb, hc⟩
  refine ⟨main.1, main.2.1, main.2.2, fun hnil => ?_⟩
  rw [main.1, hnil]
  rfl

/-- witness for C7: a concrete stream whose file holds bytes a, newline, b
yields the line a-newline first. -/
theorem c7_fstream_read_line_witness :
    1 ≤ (⟨[], 0, [97, 10, 98], 4⟩ : Fstream).buffer_capacity
  ∧ (fstream_read_line ⟨[], 0, [97, 10, 98], 4⟩ 10).1 = [97, 10] := by
  refine ⟨by decide, ?_⟩
  have h := (c7_fstream_read_line_contract ⟨[], 0, [97, 10, 98], 4⟩ 10 (by decide)).1
  exact h.trans (by decide)

/-- node well-formedness is monotone in the arena and pool sizes. -/
theorem nodeWF_mono {l l2 p p2 : Nat} {n : RNode} (hl : l ≤ l2) (hp : p ≤ p2)
    (h : NodeWF l p n) : NodeWF l2 p2 n := by
  obtain ⟨h1, h2, h3⟩ := h
  refine ⟨?_, ?_, by omega⟩
  · rcases h1 with h | h
    · exact Or.inl h
    · exact Or.inr (by omega)
  · rcases h2 with h | h
    · exact Or.inl h
    · exact Or.inr (by omega)

/-- a zeroed node is well-formed in any arena. -/
theorem nodeWF_zero (l p : Nat) : NodeWF l p RNode.zero := by
  refine ⟨Or.inl rfl, Or.inl rfl, ?_⟩
  simp [RNode.zero]

/-- every node fetched from a well-formed arena is well-formed (an index
beyond the arena yields the zero node, which is well-formed too). -/
theorem arenaWF_get (t : RTree) (h : ArenaWF t) (idx : Nat) :
    NodeWF t.nodes.length t.kwmem.length (radix_tree_get_node t idx) := by
  unfold radix_tree_get_node
  by_cases hlt : idx < t.nodes.length
  · have hm : t.nodes.getD idx RNode.zero ∈ t.nodes := by
      rw [List.getD_eq_getElem _ _ hlt]
      exact List.getElem_mem hlt
    exact h _ hm
  · rw [List.getD_eq_default _ _ (by omega)]
    exact nodeWF_zero _ _

/-- storing a well-formed node keeps the arena well-formed. -/
theorem arenaWF_set (t : RTree) (i : Nat) (n : RNode) (h : ArenaWF t)
    (hn : NodeWF t.nodes.length t.kwmem.length n) :
    ArenaWF (radix_tree_set_node t i n) := by
  intro m hm
  have hm2 : m ∈ t.nodes.set i n := hm
  rcases List.mem_or_eq_of_mem_set hm2 with h2 | h2
  · have := h m h2
    simpa [radix_tree_set_node, List.length_set] using this
  · subst h2
    simpa [radix_tree_set_node, List.length_set] using hn

/-- appending a zeroed node keeps the arena well-formed. -/
theorem arenaWF_node_add (t : RTree) (h : ArenaWF t) :
    ArenaWF (radix_tree_node_add t).1 := by
  intro m hm
  simp only [radix_tree_node_add, List.length_append, List.length_cons,
    List.length_nil] at hm ⊢
  rcases List.mem_append.mp hm with h2 | h2
  · exact nodeWF_mono (by omega) le_rfl (h m h2)
  · have h3 : m = RNode.zero := by simpa using h2
    subst h3
    exact nodeWF_zero _ _

/-- growing the keyword pool keeps the arena well-formed. -/
theorem arenaWF_kw_add (t : RTree) (kw : List Nat) (h : ArenaWF t) :
    ArenaWF (radix_tree_kw_add t kw).1 := by
  intro m hm
  simp only [radix_tree_kw_add, List.length_append] at hm ⊢
  exact nodeWF_mono le_rfl (by omega) (h m hm)

/-- the common-prefix length is bounded by the second string. -/
theorem sgcs_le_right (a b : List Nat) :
    string_greatest_common_sub a b ≤ b.length := by
  induction a generalizing b with
  | nil => cases b <;> simp [string_greatest_common_sub]
  | cons x xs ih =>
    cases b with
    | nil => simp [string_greatest_common_sub]
    | cons y ys =>
      simp only [string_greatest_common_sub, List.length_cons]
      split
      · have := ih ys
        omega
      · omega

/-- the common-prefix length against a node keyword is bounded by the
node's keyword-length field. -/
theorem common_le_kw_length (t : RTree) (idx : Nat) (str : List Nat) :
    string_greatest_common_sub str (radix_tree_get_node_kw t idx)
      ≤ (radix_tree_get_node t idx).kw_length := by
  refine le_trans (sgcs_le_right _ _) ?_
  unfold radix_tree_get_node_kw
  simp [List.length_take]

/-- re-storing a fetched node with a valid next link keeps the arena
well-formed. -/
theorem arenaWF_set_any (t : RTree) (i j : Nat) (h : ArenaWF t) (nx : Nat)
    (hnx : nx = 0 ∨ nx < t.nodes.length) :
    ArenaWF (radix_tree_set_node t i
      { radix_tree_get_node t j with next_node_idx := nx }) := by
  obtain ⟨hm1, hm2, hm3⟩ := arenaWF_get t h j
  exact arenaWF_set _ _ _ h ⟨hnx, hm2, hm3⟩

/-- every iteration of the insertion loop preserves arena well-formedness,
for any fuel, start index and keyword. -/
theorem add_loop_wf (fuel : Nat) :
    ∀ (t : RTree) (str : List Nat) (idx : Nat), ArenaWF t →
      ArenaWF (radix_tree_add_loop fuel t str idx) := by
  induction fuel with
  | zero =>
    intro t str idx h
    simpa [radix_tree_add_loop] using h
  | succ fuel ih =>
    intro t str idx h
    obtain ⟨hn1, hn2, hn3⟩ := arenaWF_get t h idx
    have hcom := common_le_kw_length t idx str
    simp only [radix_tree_add_loop]
    split_ifs with h1 h2 h3 h4 h5 h6 h7
    · exact arenaWF_set _ _ _ h ⟨hn1, hn2, hn3⟩
    · exact ih t str _ h
    · refine arenaWF_set _ _ _
        (arenaWF_set _ _ _ (arenaWF_kw_add _ _ (arenaWF_node_add _ h)) ?_) ?_
      · refine ⟨?_, ?_, ?_⟩ <;>
          simp only [radix_tree_node_add, radix_tree_kw_add, List.length_append,
            List.length_cons, List.length_nil] <;>
          omega
      · refine ⟨?_, ?_, ?_⟩ <;>
          simp only [radix_tree_node_add, radix_tree_kw_add, radix_tree_set_node,
            List.length_append, List.length_cons, List.length_nil, List.length_set] <;>
          omega
    · exact ih t _ _ h
    · refine arenaWF_set _ _ _
        (arenaWF_set _ _ _ (arenaWF_kw_add _ _ (arenaWF_node_add _ h)) ?_) ?_
      · refine ⟨?_, ?_, ?_⟩ <;>
          simp only [radix_tree_node_add, radix_tree_kw_add, List.length_append,
            List.length_cons, List.length_nil] <;>
          omega
      · refine ⟨?_, ?_, ?_⟩ <;>
          simp only [radix_tree_node_add, radix_tree_kw_add, radix_tree_set_node,
            List.length_append, List.length_cons, List.length_nil, List.length_set] <;>
          omega
    · refine arenaWF_set _ _ _
        (arenaWF_set _ _ _ (arenaWF_node_add _ h) ?_) ?_
      · refine ⟨?_, ?_, ?_⟩ <;>
          simp only [radix_tree_node_add, List.length_append, List.length_cons,
            List.length_nil] <;>
          omega
      · refine ⟨?_, ?_, ?_⟩ <;>
          simp only [radix_tree_node_add, radix_tree_set_node, List.length_append,
            List.length_cons, List.length_nil, List.length_set] <;>
          omega
    · refine ih _ _ _ (arenaWF_set _ _ _
        (arenaWF_set _ _ _ (arenaWF_node_add _ h) ?_) ?_)
      · refine ⟨?_, ?_, ?_⟩ <;>
          simp only [radix_tree_node_add, List.length_append, List.length_cons,
            List.length_nil] <;>
          omega
      · refine ⟨?_, ?_, ?_⟩ <;>
          simp only [radix_tree_node_add, radix_tree_set_node, List.length_append,
            List.length_cons, List.length_nil, List.length_set] <;>
          omega
    · have ht3 : ArenaWF (radix_tree_set_node
          (radix_tree_set_node (radix_tree_node_add t).1 (radix_tree_node_add t).2
            ⟨(radix_tree_get_node t idx).kw_idx
                + string_greatest_common_sub str (radix_tree_get_node_kw t idx),
              (radix_tree_get_node t idx).kw_length
                - string_greatest_common_sub str (radix_tree_get_node_kw t idx),
              0, (radix_tree_get_node t idx).child_node_idx,
              (radix_tree_get_node t idx).leaf⟩)
          idx
          ⟨(radix_tree_get_node t idx).kw_idx,
            string_greatest_common_sub str (radix_tree_get_node_kw t idx),
            (radix_tree_get_node t idx).next_node_idx, (radix_tree_node_add t).2,
            false⟩) := by
        refine arenaWF_set _ _ _
          (arenaWF_set _ _ _ (arenaWF_node_add _ h) ?_) ?_
        · refine ⟨?_, ?_, ?_⟩ <;>
            simp only [radix_tree_node_add, List.length_append, List.length_cons,
              List.length_nil] <;>
            omega
        · refine ⟨?_, ?_, ?_⟩ <;>
            simp only [radix_tree_node_add, radix_tree_set_node, List.length_append,
              List.length_cons, List.length_nil, List.length_set] <;>
            omega
      refine arenaWF_set _ _ _ (arenaWF_set_any _ _ _
        (arenaWF_kw_add _ _ (arenaWF_node_add _ ht3)) _ ?_) ?_
      · right
        simp only [radix_tree_node_add, radix_tree_kw_add, radix_tree_set_node,
          List.length_append, List.length_cons, List.length_nil, List.length_set]
        omega
      · refine ⟨Or.inl rfl, Or.inl rfl, ?_⟩
        simp only [radix_tree_node_add, radix_tree_kw_add, radix_tree_set_node,
          List.length_append, List.length_cons, List.length_nil, List.length_set]
        omega

/-- radix_tree_add preserves arena well-formedness. -/
theorem radix_tree_add_wf (t : RTree) (str : List Nat) (h : ArenaWF t) :
    ArenaWF (radix_tree_add t str) := by
  unfold radix_tree_add
  split
  · refine arenaWF_set _ _ _ (arenaWF_kw_add _ _ (arenaWF_node_add _ h)) ?_
    refine ⟨Or.inl rfl, Or.inl rfl, ?_⟩
    simp only [radix_tree_node_add, radix_tree_kw_add, List.length_append]
    omega
  · exact add_loop_wf _ t str 0 h

/-- the freshly initialised arena is well-formed. -/
theorem arenaWF_init : ArenaWF radix_tree_init := by
  intro n hn
  simp [radix_tree_init] at hn

/-- any sequence of insertions preserves arena well-formedness. -/
theorem foldl_add_wf (kws : List (List Nat)) :
    ∀ t, ArenaWF t → ArenaWF (List.foldl radix_tree_add t kws) := by
  induction kws with
  | nil => intro t h; simpa using h
  | cons k ks ih => intro t h; exact ih _ (radix_tree_add_wf _ _ h)

/-- on a well-formed arena, the find loop never performs an out-of-range
node or pool access, whatever the fuel, query and valid start index. -/
theorem find_loop_safe (fuel : Nat) :
    ∀ (t : RTree) (str : List Nat) (idx : Nat), ArenaWF t → idx < t.nodes.length →
      radix_tree_find_loop fuel t str idx ≠ none := by
  induction fuel with
  | zero =>
    intro t str idx h hidx
    simp [radix_tree_find_loop]
  | succ fuel ih =>
    intro t str idx h hidx
    obtain ⟨hn1, hn2, hn3⟩ := arenaWF_get t h idx
    simp only [radix_tree_find_loop]
    rw [if_pos hidx, if_pos hn3]
    split_ifs with ha hb hc hd he hf hg
    · simp
    · apply ih t str _ h
      rcases hn1 with h9 | h9 <;> omega
    · simp
    · simp
    · apply ih t _ _ h
      rcases hn2 with h9 | h9 <;> omega
    · simp
    · apply ih t str _ h
      rcases hn1 with h9 | h9 <;> omega
    · simp

/-- C10: after radix_tree_init and any sequence of radix_tree_add calls with
non-empty keywords, every next and child index stored in an allocated node
is 0 or the index of an allocated node, and every keyword view lies within
the pool (ArenaWF); hence the instrumented radix_tree_find never reports an
out-of-range dereference on any query. -/
theorem c10_arena_wf_and_find_safe (kws : List (List Nat))
    (_hkw : ∀ k ∈ kws, k ≠ []) :
    ArenaWF (List.foldl radix_tree_add radix_tree_init kws)
  ∧ ∀ str, radix_tree_find_checked
      (List.foldl radix_tree_add radix_tree_init kws) str ≠ none := by
  have hwf := foldl_add_wf kws radix_tree_init arenaWF_init
  refine ⟨hwf, fun str => ?_⟩
  unfold radix_tree_find_checked
  split
  · simp
  · next hne => exact find_loop_safe _ _ _ _ hwf (by omega)

/-- witness for C10: the arena built from the single keyword a is
well-formed, via the theorem. -/
theorem c10_arena_wf_witness :
    (∀ k ∈ [[97]], k ≠ ([] : List Nat))
  ∧ ArenaWF (List.foldl radix_tree_add radix_tree_init [[97]]) :=
  ⟨by decide, (c10_arena_wf_and_find_safe [[97]] (by decide)).1⟩
